import Mathlib

/-!
Shallow embedding of `scripts/generate-i18n-pages.mjs` (the i18n static-page
generator): URL construction, key resolution, metadata injection, alternate
hreflang / canonical link construction, and anchor-href rewriting, together
with the per-(page, locale) orchestration loop.

Strings are modelled through their character lists; every JavaScript string
operation used by the script (startsWith, slice, includes, the concrete
regexes, `Array.join`, `String.replace` with a literal pattern) is embedded
as an executable function on `List Char` / `String`.
-/

/-- `isPrefixOfL p s` : does the character list `s` start with `p`?
Embeds JavaScript `s.startsWith(p)` (restricted to the lists). -/
def isPrefixOfL : List Char → List Char → Bool
  | [], _ => true
  | _ :: _, [] => false
  | a :: as, b :: bs => a == b && isPrefixOfL as bs

/-- `containsSubL p s` : does `s` contain `p` as a contiguous substring?
Embeds JavaScript `s.includes(p)`. -/
def containsSubL (p : List Char) : List Char → Bool
  | [] => isPrefixOfL p []
  | c :: rest => isPrefixOfL p (c :: rest) || containsSubL p rest

/-- Replace the first occurrence of `pat` in `s` by `rep`; embeds JavaScript
`s.replace(pat, rep)` for a literal (non-regex) pattern. -/
def replaceFirstL (pat rep : List Char) : List Char → List Char
  | [] => if isPrefixOfL pat [] then rep else []
  | c :: rest =>
      if isPrefixOfL pat (c :: rest) then rep ++ (c :: rest).drop pat.length
      else c :: replaceFirstL pat rep rest

/-- Embeds `str.replace(<hyphen-lowercase regex>, (g) => g[1].toUpperCase())`:
every hyphen followed by a lowercase ASCII letter is deleted and the letter
upper-cased; the regex scans left to right without overlap. -/
def camelL : List Char → List Char
  | [] => []
  | '-' :: c :: rest =>
      if 'a' ≤ c ∧ c ≤ 'z' then c.toUpper :: camelL rest
      else '-' :: camelL (c :: rest)
  | c :: rest => c :: camelL rest

/-- Split a character list on `'/'`; used to talk about path segments. -/
def splitSlashL : List Char → List (List Char)
  | [] => [[]]
  | c :: rest =>
      if c = '/' then [] :: splitSlashL rest
      else
        match splitSlashL rest with
        | [] => [[c]]
        | s :: ss => (c :: s) :: ss

def strStartsWith (s p : String) : Bool := isPrefixOfL p.data s.data

def strContainsSub (s p : String) : Bool := containsSubL p.data s.data

def strDropN (s : String) (n : Nat) : String := String.mk (s.data.drop n)

def strLen (s : String) : Nat := s.data.length

def replaceFirstStr (s pat rep : String) : String :=
  String.mk (replaceFirstL pat.data rep.data s.data)

/-- The script's `toCamelCase` on strings. -/
def toCamelCase (s : String) : String := String.mk (camelL s.data)

/-- Embeds `s.replace(/^\//, '')`: remove a single leading slash. -/
def dropOneLeadingSlash (s : String) : String :=
  if strStartsWith s "/" then strDropN s 1 else s

/-- Embeds `s.replace(/\/+$/, '')`: remove every trailing slash. -/
def dropTrailingSlashes (s : String) : String :=
  String.mk ((s.data.reverse.dropWhile (fun c => c == '/')).reverse)

/-- Embeds `parts.join('/')`. -/
def joinSlash : List String → String
  | [] => ""
  | [p] => p
  | p :: q :: rest => p ++ "/" ++ joinSlash (q :: rest)

/-- Embeds `buildUrl(langPrefix, pagePath)` with the module constants
`SITE_URL` and `BASE_PATH` made explicit parameters:
start from `[SITE_URL]`, push the base path without its leading slash when
non-empty, push the language prefix when non-empty, push the page path
without its leading slash when non-empty, join the truthy parts with `/`,
trim trailing slashes, and fall back to `SITE_URL` when everything
cancelled out. -/
def buildUrl (siteURL basePath langPrefix pagePath : String) : String :=
  let parts : List String :=
    [siteURL]
      ++ (if basePath = "" then [] else [dropOneLeadingSlash basePath])
      ++ (if langPrefix = "" then [] else [langPrefix])
      ++ (if pagePath = "" then [] else [dropOneLeadingSlash pagePath])
  let joined := dropTrailingSlashes (joinSlash (parts.filter (fun p => p != "")))
  if joined = "" then siteURL else joined

/-- First-match association lookup; embeds JavaScript object property access
on the objects the script builds. -/
def lookupAssoc {α : Type} (k : String) : List (String × α) → Option α
  | [] => none
  | (k2, v) :: rest => if k2 = k then some v else lookupAssoc k rest

/-- The script's `KEY_MAPPING` object (`index → home`, `404 → notFound`). -/
def KEY_MAPPING : List (String × String) := [("index", "home"), ("404", "notFound")]

/-- `file.replace('.html', '')`: the script's `filenameNoExt` value. Note
that JavaScript `String.replace` with a string pattern removes only the
first occurrence of `.html`. -/
def filenameNoExt (file : String) : String := replaceFirstStr file ".html" ""

/-- The script's translation-key computation: camel-case of `filenameNoExt`,
overridden by a `KEY_MAPPING` entry keyed on `filenameNoExt` when present. -/
def translationKeyOf (file : String) : String :=
  match lookupAssoc (filenameNoExt file) KEY_MAPPING with
  | some k => k
  | none => toCamelCase (filenameNoExt file)

/-- `pagePath`: empty for the index page, otherwise `filenameNoExt`. -/
def pagePathOf (file : String) : String :=
  if filenameNoExt file = "index" then "" else filenameNoExt file

/-- One entry of a locale's `tools.json` bundle: the three optional string
fields the script reads. A `some ""` value models a field that is present
but holds the empty string (falsy in JavaScript). -/
structure ToolsEntry where
  pageTitle : Option String
  name : Option String
  subtitle : Option String
deriving DecidableEq, Repr

/-- A `<link>` element of the document head: its `rel`, its `hreflang`
attribute when present, and its `href`. -/
structure LinkEl where
  rel : String
  hreflang : Option String
  href : String
deriving DecidableEq, Repr

/-- The parts of a parsed HTML document the script reads or mutates:
the root `lang` attribute, the `<title>` text, the metadata tags keyed by
the attribute selector the script queries them with (first match wins),
the `<link>` elements, and the `href` attributes of the anchors in document
order. -/
structure Doc where
  htmlLang : String
  title : String
  metas : List (String × String)
  links : List LinkEl
  anchors : List String
deriving DecidableEq, Repr

/-- JavaScript truthiness of an optional string: absent and `""` are falsy. -/
def truthyOpt : Option String → Bool
  | none => false
  | some s => s != ""

/-- Embeds
`tools[key].pageTitle || (tools[key].name ? name + ' - BentoPDF' : null)`. -/
def resolveTitle (e : ToolsEntry) : Option String :=
  if truthyOpt e.pageTitle then e.pageTitle
  else
    match e.name with
    | some n => if n != "" then some (n ++ " - BentoPDF") else none
    | none => none

/-- Set the content of the first metadata tag matching `key`, if any;
embeds `querySelector(...)` followed by a content assignment guarded by an
existence check. -/
def updateFirstMeta (key val : String) : List (String × String) → List (String × String)
  | [] => []
  | (k, c) :: rest =>
      if k = key then (k, val) :: rest else (k, c) :: updateFirstMeta key val rest

/-- Content of the first metadata tag matching `key`, if any. -/
def findMeta (key : String) : List (String × String) → Option String
  | [] => none
  | (k, c) :: rest => if k = key then some c else findMeta key rest

def ogTitleKey : String := "property=og:title"
def twitterTitleKey : String := "name=twitter:title"
def descKey : String := "name=description"
def ogDescKey : String := "property=og:description"
def twitterDescKey : String := "name=twitter:description"

/-- The title-writing block: set `document.title` and the contents of the
`og:title` and `twitter:title` metadata tags that exist. -/
def applyTitle (t : String) (d : Doc) : Doc :=
  { d with
      title := t
      metas := updateFirstMeta twitterTitleKey t (updateFirstMeta ogTitleKey t d.metas) }

/-- The description-writing block: set the contents of the `description`,
`og:description` and `twitter:description` metadata tags that exist. -/
def applyDesc (s : String) (d : Doc) : Doc :=
  { d with
      metas := updateFirstMeta twitterDescKey s
        (updateFirstMeta ogDescKey s (updateFirstMeta descKey s d.metas)) }

/-- `if (title) { ... }` for the resolved title. -/
def injectTitle (e : ToolsEntry) (d : Doc) : Doc :=
  match resolveTitle e with
  | some t => if t != "" then applyTitle t d else d
  | none => d

/-- `description = tools[key].subtitle; if (description) { ... }`. -/
def injectDesc (e : ToolsEntry) (d : Doc) : Doc :=
  match e.subtitle with
  | some s => if s != "" then applyDesc s d else d
  | none => d

/-- The metadata block of the script: a no-op unless the tools bundle has an
entry for the translation key. -/
def injectMetadata (tools : List (String × ToolsEntry)) (key : String) (d : Doc) : Doc :=
  match lookupAssoc key tools with
  | none => d
  | some e => injectDesc e (injectTitle e d)

/-- `link[rel="alternate"][hreflang]`: an alternate link carrying an
`hreflang` attribute. -/
def isAltHreflang (l : LinkEl) : Bool := l.rel == "alternate" && l.hreflang.isSome

/-- The alternate links the script appends: one per discovered locale (the
default locale `en` gets an empty URL prefix) followed by the `x-default`
link. -/
def mkAlternates (siteURL basePath pagePath : String) (langs : List String) : List LinkEl :=
  langs.map (fun l =>
    { rel := "alternate", hreflang := some l
      href := buildUrl siteURL basePath (if l = "en" then "" else l) pagePath })
  ++ [{ rel := "alternate", hreflang := some "x-default"
        href := buildUrl siteURL basePath "" pagePath }]

/-- Remove every alternate-hreflang link (the `forEach(el => el.remove())`
over `link[rel="alternate"][hreflang]`). -/
def removeAltHreflang (ls : List LinkEl) : List LinkEl :=
  ls.filter (fun l => !(isAltHreflang l))

def hasCanonical (ls : List LinkEl) : Bool := ls.any (fun l => l.rel == "canonical")

/-- Set the `href` of the first `rel="canonical"` link (the element
`querySelector('link[rel="canonical"]')` returns). -/
def setFirstCanonicalHref (url : String) : List LinkEl → List LinkEl
  | [] => []
  | l :: rest =>
      if l.rel = "canonical" then { l with href := url } :: rest
      else l :: setFirstCanonicalHref url rest

/-- The alternate/canonical block run for a localized copy: drop the old
alternate-hreflang links, append the regenerated set, then update the first
canonical link or append a fresh one pointing at the current locale. -/
def applyAlternates (siteURL basePath pagePath lang : String) (langs : List String)
    (d : Doc) : Doc :=
  let ls1 := removeAltHreflang d.links ++ mkAlternates siteURL basePath pagePath langs
  let canonicalUrl := buildUrl siteURL basePath lang pagePath
  let ls2 :=
    if hasCanonical ls1 then setFirstCanonicalHref canonicalUrl ls1
    else ls1 ++ [{ rel := "canonical", hreflang := none, href := canonicalUrl }]
  { d with links := ls2 }

/-- The second pass over the original default-locale file: only the
alternate-hreflang links are removed and regenerated; no canonical update,
no metadata, no lang attribute, no anchor rewriting. -/
def refreshAlternatesOnly (siteURL basePath pagePath : String) (langs : List String)
    (d : Doc) : Doc :=
  { d with links := removeAltHreflang d.links ++ mkAlternates siteURL basePath pagePath langs }

/-- One alternative of `langPrefixRegex`: does `href` start with `p` as a
complete path segment, i.e. followed by `/` or the end of the string? -/
def segScopeMatch (p href : String) : Bool :=
  strStartsWith href p &&
    (strDropN href (strLen p) == "" || strStartsWith (strDropN href (strLen p)) "/")

/-- Embeds `new RegExp('^(' + BASE_PATH + ')?/(' + languages.join('|') + ')(/|$)').test(href)`
for literal base path and locale codes: the optional base-path group either
matches `BASE_PATH` or is empty, then `/`, a locale code, and `/` or the end
of the string. -/
def isLangScoped (basePath : String) (langs : List String) (href : String) : Bool :=
  langs.any (fun l =>
    segScopeMatch (basePath ++ "/" ++ l) href || segScopeMatch ("/" ++ l) href)

/-- The per-anchor body of the link-rewriting loop: keep fragment, external,
protocol-special, asset and already-locale-scoped hrefs (and the empty
href, which fails the `if (!href)` guard); prefix everything else with the
target locale, stripping the base-path prefix first for absolute hrefs. -/
def rewriteHref (basePath : String) (langs : List String) (lang : String)
    (href : String) : String :=
  if href = "" then href
  else if strStartsWith href "http" || strStartsWith href "//" || strStartsWith href "#"
      || strStartsWith href "mailto:" || strStartsWith href "tel:"
      || strStartsWith href "javascript:" then href
  else if strStartsWith href "/assets/" || strContainsSub href "/assets/" then href
  else if isLangScoped basePath langs href then href
  else if strStartsWith href "/" then
    let pathWithoutBase :=
      if strStartsWith href basePath then strDropN href (strLen basePath) else href
    basePath ++ "/" ++ lang ++ pathWithoutBase
  else lang ++ "/" ++ href

/-- The `pathWithoutBase` computation of the rewrite branch: strip the
base-path prefix when the href starts with it. -/
def stripBaseOpt (basePath href : String) : String :=
  if strStartsWith href basePath then strDropN href (strLen basePath) else href

/-- First path segment of an href in the sense of the specification's
wording ("href's first path segment"): the characters up to the first `/`,
skipping one leading `/` when present. Used only to compare the
specification's phrasing with the code's regex-based detection. -/
def firstPathSegment (s : String) : String :=
  String.mk ((if strStartsWith s "/" then s.data.drop 1 else s.data).takeWhile
    (fun c => c != '/'))

/-- Number of path segments of `s` equal to `seg`. -/
def segCount (seg s : String) : Nat :=
  (splitSlashL s.data).countP (fun t => t == seg.data)

/-- Number of leading consecutive segments equal to `seg`. -/
def countLeadSeg (seg : List Char) : List (List Char) → Nat
  | [] => 0
  | s :: ss => if s = seg then countLeadSeg seg ss + 1 else 0

/-- How many times `lang` appears as a leading path segment of `s` (a
leading empty segment produced by an absolute path is skipped): the number
of times the href is locale-prefixed. -/
def leadLocaleCount (lang s : String) : Nat :=
  match splitSlashL s.data with
  | [] :: rest => countLeadSeg lang.data rest
  | segs => countLeadSeg lang.data segs

/-- The site configuration the script reads from the environment. -/
structure SiteConfig where
  siteURL : String
  basePath : String
deriving DecidableEq, Repr

/-- The two JSON bundles read for a locale. `common.json` is parsed into an
opaque key-value map; the script never reads from it afterwards. -/
structure LocaleBundles where
  common : List (String × String)
  tools : List (String × ToolsEntry)
deriving DecidableEq, Repr

/-- The body of the inner `for (const lang of languages)` loop for one page
and one non-default locale: set the root lang attribute, inject metadata
from the locale's tools bundle, rebuild the alternate/canonical links, and
rewrite every anchor href. -/
def processLocalized (cfg : SiteConfig) (langs : List String) (lang : String)
    (file : String) (bundles : LocaleBundles) (d : Doc) : Doc :=
  let d1 := { d with htmlLang := lang }
  let d2 := injectMetadata bundles.tools (translationKeyOf file) d1
  let d3 := applyAlternates cfg.siteURL cfg.basePath (pagePathOf file) lang langs d2
  { d3 with anchors := d3.anchors.map (rewriteHref cfg.basePath langs lang) }

/-- The whole run of `generateI18nPages` as a function from its inputs to
the written documents, keyed by `(locale directory, filename)`; the key
`("", file)` is the in-place rewrite of the original default-locale file.
Every page is processed for every non-default locale from a fresh copy of
the source document. -/
def fullRun (cfg : SiteConfig) (langs : List String)
    (bundles : String → LocaleBundles) (pages : List (String × Doc)) :
    List ((String × String) × Doc) :=
  pages.flatMap (fun pg =>
    ((langs.filter (fun l => l != "en")).map (fun lang =>
      ((lang, pg.1), processLocalized cfg langs lang pg.1 (bundles lang) pg.2)))
    ++ [(("", pg.1),
         refreshAlternatesOnly cfg.siteURL cfg.basePath (pagePathOf pg.1) langs pg.2)])

/-- Does `s` end with `p`? -/
def strEndsWith (s p : String) : Bool := isPrefixOfL p.data.reverse s.data.reverse

/-- Filename stem following the specification's wording ("strip the
extension"): remove a trailing `.html`. Stated only to compare the
specification's phrasing with the code's first-occurrence `replace`. -/
def specStripExt (file : String) : String :=
  if strEndsWith file ".html" then String.mk (file.data.take (file.data.length - 5))
  else file

/-- Translation-key computation following the specification's wording:
strip the extension, apply the override table on the stripped name,
otherwise camel-case it. Stated only for comparison with
`translationKeyOf`. -/
def specTranslationKey (file : String) : String :=
  match lookupAssoc (specStripExt file) KEY_MAPPING with
  | some k => k
  | none => toCamelCase (specStripExt file)

/-- Concrete site configuration used for closed instances: the script's
default environment (`SITE_URL = https://bentopdf.com`, empty base path). -/
def siteCfgW : SiteConfig := { siteURL := "https://bentopdf.com", basePath := "" }

/-- Concrete locale list used for closed instances. -/
def langsW : List String := ["en", "fr", "de"]

/-- A concrete source document used for closed instances: one canonical
link, one stale alternate link, one unrelated stylesheet link, two
anchors. -/
def docW : Doc :=
  { htmlLang := "en", title := "BentoPDF"
    metas := [("property=og:title", "BentoPDF"), ("name=description", "D")]
    links := [{ rel := "canonical", hreflang := none, href := "https://bentopdf.com" },
              { rel := "alternate", hreflang := some "en", href := "stale" },
              { rel := "stylesheet", hreflang := none, href := "/assets/a.css" }]
    anchors := ["/about.html", "#top"] }

/-- Concrete locale bundles used for closed instances. -/
def bundlesW : LocaleBundles :=
  { common := [("k", "v")]
    tools := [("about", { pageTitle := some "About BentoPDF", name := some "About"
                          subtitle := some "S" })] }

/-! ## Basic lemmas about the string embedding -/

theorem strData_append (a b : String) : (a ++ b).data = a.data ++ b.data := rfl

theorem strMk_data (s : String) : String.mk s.data = s := rfl

theorem isPrefixOfL_append (xs ys : List Char) : isPrefixOfL xs (xs ++ ys) = true := by
  induction xs with
  | nil => rfl
  | cons a as ih => simp [isPrefixOfL, ih]

theorem strStartsWith_append (p q : String) : strStartsWith (p ++ q) p = true := by
  unfold strStartsWith
  rw [strData_append]
  exact isPrefixOfL_append p.data q.data

theorem strLen_eq (s : String) : strLen s = s.data.length := rfl

theorem strDropN_append (p q : String) : strDropN (p ++ q) (strLen p) = q := by
  unfold strDropN
  rw [strData_append, strLen_eq, List.drop_left]

theorem strStartsWith_slash_shape (href : String) (h : strStartsWith href "/" = true) :
    ∃ t, href.data = '/' :: t := by
  unfold strStartsWith at h
  cases hd : href.data with
  | nil => rw [hd] at h; simp [isPrefixOfL] at h
  | cons c t =>
    rw [hd] at h
    simp [isPrefixOfL] at h
    exact ⟨t, by rw [← h]⟩

/-! ## The link rewriter leaves guarded hrefs unchanged -/

theorem rewriteHref_of_scoped (basePath : String) (langs : List String) (lang href : String)
    (h : isLangScoped basePath langs href = true) :
    rewriteHref basePath langs lang href = href := by
  unfold rewriteHref
  split
  · rfl
  · split
    · rfl
    · split
      · rfl
      · rfl

theorem segScopeMatch_of_append (p rest : String)
    (hrest : rest = "" ∨ strStartsWith rest "/" = true) :
    segScopeMatch p (p ++ rest) = true := by
  unfold segScopeMatch
  rw [strStartsWith_append, strDropN_append]
  cases hrest with
  | inl h => subst h; simp
  | inr h => simp [h]

theorem isLangScoped_of_seg (basePath : String) (langs : List String) (l rest href : String)
    (hl : l ∈ langs) (hrest : rest = "" ∨ strStartsWith rest "/" = true)
    (hhref : href = basePath ++ "/" ++ l ++ rest ∨ href = "/" ++ l ++ rest) :
    isLangScoped basePath langs href = true := by
  unfold isLangScoped
  rw [List.any_eq_true]
  refine ⟨l, hl, ?_⟩
  cases hhref with
  | inl h =>
    subst h
    rw [segScopeMatch_of_append (basePath ++ "/" ++ l) rest hrest]
    simp
  | inr h =>
    subst h
    rw [segScopeMatch_of_append ("/" ++ l) rest hrest]
    simp

/-- C4: every anchor href that begins with `http`, `//`, `#`, `mailto:`,
`tel:` or `javascript:`, and every href containing the `/assets/` path
substring, is left unchanged by the link rewriter, for every base path,
locale list and target locale. -/
theorem linkRewriter_leaves_special_hrefs (basePath : String) (langs : List String)
    (lang href : String)
    (h : (strStartsWith href "http" || strStartsWith href "//" || strStartsWith href "#"
        || strStartsWith href "mailto:" || strStartsWith href "tel:"
        || strStartsWith href "javascript:") = true
      ∨ strContainsSub href "/assets/" = true) :
    rewriteHref basePath langs lang href = href := by
  unfold rewriteHref
  split
  · rfl
  · split
    · rfl
    · split
      · rfl
      · cases h with
        | inl h => simp_all
        | inr h => simp_all

theorem linkRewriter_leaves_special_hrefs_witness :
    ((strStartsWith "#section" "http" || strStartsWith "#section" "//"
        || strStartsWith "#section" "#" || strStartsWith "#section" "mailto:"
        || strStartsWith "#section" "tel:" || strStartsWith "#section" "javascript:") = true
      ∨ strContainsSub "#section" "/assets/" = true)
  ∧ rewriteHref "" ["en", "fr", "de"] "de" "#section" = "#section"
  ∧ rewriteHref "" ["en", "fr", "de"] "de" "https://external.com/x" = "https://external.com/x"
  ∧ rewriteHref "" ["en", "fr", "de"] "fr" "mailto:a@b.com" = "mailto:a@b.com"
  ∧ rewriteHref "" ["en", "fr", "de"] "fr" "tel:+1234" = "tel:+1234"
  ∧ rewriteHref "/app" ["en", "fr", "de"] "de" "/assets/logo.png" = "/assets/logo.png" :=
  ⟨Or.inl (by decide),
   linkRewriter_leaves_special_hrefs "" ["en", "fr", "de"] "de" "#section" (Or.inl (by decide)),
   linkRewriter_leaves_special_hrefs "" ["en", "fr", "de"] "de" "https://external.com/x"
     (Or.inl (by decide)),
   linkRewriter_leaves_special_hrefs "" ["en", "fr", "de"] "fr" "mailto:a@b.com"
     (Or.inl (by decide)),
   linkRewriter_leaves_special_hrefs "" ["en", "fr", "de"] "fr" "tel:+1234"
     (Or.inl (by decide)),
   linkRewriter_leaves_special_hrefs "/app" ["en", "fr", "de"] "de" "/assets/logo.png"
     (Or.inr (by decide))⟩

/-- C2 (counterexample): the relative href `fr/pricing.html` has first path
segment `fr`, a discovered locale code, yet the rewriter does not leave it
unchanged: the already-locale-scoped regex demands a leading slash, so the
href is prefixed to `de/fr/pricing.html`. -/
theorem linkRewriter_relative_locale_segment_rewritten :
    firstPathSegment (stripBaseOpt "" "fr/pricing.html") = "fr"
  ∧ "fr" ∈ (["en", "fr", "de"] : List String)
  ∧ rewriteHref "" ["en", "fr", "de"] "de" "fr/pricing.html" = "de/fr/pricing.html"
  ∧ ("de/fr/pricing.html" : String) ≠ "fr/pricing.html" := by
  decide

/-- C2 (amended): every href that begins — after an optional base-path
prefix — with `/` followed by a discovered locale code as a complete path
segment is left unchanged; the comparison is exact-segment, so
`/french/x` is still rewritten while `/fr/pricing.html` is untouched for
target locale `de`. -/
theorem linkRewriter_already_scoped_unchanged (basePath : String) (langs : List String)
    (lang l rest href : String) (hl : l ∈ langs)
    (hrest : rest = "" ∨ strStartsWith rest "/" = true)
    (hhref : href = basePath ++ "/" ++ l ++ rest ∨ href = "/" ++ l ++ rest) :
    rewriteHref basePath langs lang href = href
  ∧ rewriteHref "" ["en", "fr", "de"] "de" "/fr/pricing.html" = "/fr/pricing.html"
  ∧ rewriteHref "" ["en", "fr", "de"] "de" "/french/x" = "/de/french/x" :=
  ⟨rewriteHref_of_scoped basePath langs lang href
      (isLangScoped_of_seg basePath langs l rest href hl hrest hhref),
   by decide, by decide⟩

theorem linkRewriter_already_scoped_unchanged_witness :
    ("fr" ∈ (["en", "fr", "de"] : List String)
      ∧ ("/fr/pricing.html" : String) = "/" ++ "fr" ++ "/pricing.html")
  ∧ rewriteHref "" ["en", "fr", "de"] "de" "/fr/pricing.html" = "/fr/pricing.html" :=
  ⟨⟨by decide, by decide⟩,
   (linkRewriter_already_scoped_unchanged "" ["en", "fr", "de"] "de" "fr" "/pricing.html"
      "/fr/pricing.html" (by decide) (Or.inr (by decide)) (Or.inr (by decide))).1⟩

/-- C3 (counterexample): the relative href `fr/x`, processed for target
locale `fr`, is classified internal-rewritable and prefixed again, yielding
`fr/fr/x` — two occurrences of the locale's path segment. -/
theorem linkRewriter_double_prefix_on_relative :
    rewriteHref "" ["en", "fr", "de"] "fr" "fr/x" = "fr/fr/x"
  ∧ segCount "fr" "fr/fr/x" = 2
  ∧ ("fr/fr/x" : String) ≠ "fr/x" := by
  decide

/-! ## Path-segment lemmas for the rewrite branch -/

theorem strExt (s t : String) (h : s.data = t.data) : s = t :=
  congrArg String.mk h

theorem splitSlashL_append_seg (x t : List Char) (hx : ∀ c ∈ x, c ≠ '/') :
    splitSlashL (x ++ '/' :: t) = x :: splitSlashL t := by
  induction x with
  | nil =>
    show splitSlashL ('/' :: t) = [] :: splitSlashL t
    rw [splitSlashL, if_pos rfl]
  | cons c cs ih =>
    have hc : c ≠ '/' := hx c (List.mem_cons_self c cs)
    have ih2 := ih (fun d hd => hx d (List.mem_cons_of_mem c hd))
    show splitSlashL (c :: (cs ++ '/' :: t)) = (c :: cs) :: splitSlashL t
    rw [splitSlashL, if_neg hc, ih2]

theorem splitSlashL_head (x : List Char) :
    ∃ ss, splitSlashL x = x.takeWhile (fun c => c != '/') :: ss := by
  induction x with
  | nil => exact ⟨[], rfl⟩
  | cons c rest ih =>
    by_cases hc : c = '/'
    · subst hc
      refine ⟨splitSlashL rest, ?_⟩
      rw [splitSlashL, if_pos rfl]
      simp [List.takeWhile_cons]
    · obtain ⟨ss, hss⟩ := ih
      refine ⟨ss, ?_⟩
      rw [splitSlashL, if_neg hc, hss]
      simp [List.takeWhile_cons, hc]

theorem dropWhile_head_not {p : Char → Bool} {l : List Char} {c : Char} {cs : List Char}
    (h : l.dropWhile p = c :: cs) : p c = false := by
  induction l with
  | nil => simp [List.dropWhile] at h
  | cons a as ih =>
    rw [List.dropWhile_cons] at h
    by_cases hp : p a = true
    · rw [if_pos hp] at h
      exact ih h
    · rw [if_neg hp] at h
      injection h with h1 h2
      rw [← h1]
      simpa using hp

theorem rewriteHref_rewritable_abs (basePath : String) (langs : List String)
    (lang href : String)
    (h1 : (strStartsWith href "http" || strStartsWith href "//" || strStartsWith href "#"
        || strStartsWith href "mailto:" || strStartsWith href "tel:"
        || strStartsWith href "javascript:") = false)
    (h2 : (strStartsWith href "/assets/" || strContainsSub href "/assets/") = false)
    (h3 : isLangScoped basePath langs href = false)
    (h4 : strStartsWith href "/" = true) :
    rewriteHref basePath langs lang href
      = basePath ++ "/" ++ lang ++ stripBaseOpt basePath href := by
  have hne : href ≠ "" := by
    obtain ⟨t, ht⟩ := strStartsWith_slash_shape href h4
    intro he
    rw [he] at ht
    simp at ht
  unfold rewriteHref stripBaseOpt
  simp [hne, h1, h2, h3, h4]

theorem rewriteHref_rewritable_rel (basePath : String) (langs : List String)
    (lang href : String)
    (h1 : (strStartsWith href "http" || strStartsWith href "//" || strStartsWith href "#"
        || strStartsWith href "mailto:" || strStartsWith href "tel:"
        || strStartsWith href "javascript:") = false)
    (h2 : (strStartsWith href "/assets/" || strContainsSub href "/assets/") = false)
    (h3 : isLangScoped basePath langs href = false)
    (h4 : strStartsWith href "/" = false) (hne : href ≠ "") :
    rewriteHref basePath langs lang href = lang ++ "/" ++ href := by
  unfold rewriteHref
  simp [hne, h1, h2, h3, h4]

theorem stripBaseOpt_empty (href : String) : stripBaseOpt "" href = href := by
  unfold stripBaseOpt
  rw [if_pos (by rfl)]
  unfold strDropN strLen
  simp

theorem rewriteHref_abs_single_lead (langs : List String) (lang href : String)
    (hlslash : ∀ c ∈ lang.data, c ≠ '/') (hl : lang ∈ langs)
    (h1 : (strStartsWith href "http" || strStartsWith href "//" || strStartsWith href "#"
        || strStartsWith href "mailto:" || strStartsWith href "tel:"
        || strStartsWith href "javascript:") = false)
    (h2 : (strStartsWith href "/assets/" || strContainsSub href "/assets/") = false)
    (h3 : isLangScoped "" langs href = false)
    (h4 : strStartsWith href "/" = true) :
    leadLocaleCount lang (rewriteHref "" langs lang href) = 1 := by
  obtain ⟨t, ht⟩ := strStartsWith_slash_shape href h4
  rw [rewriteHref_rewritable_abs "" langs lang href h1 h2 h3 h4, stripBaseOpt_empty]
  have hdata : ("" ++ "/" ++ lang ++ href).data = '/' :: (lang.data ++ '/' :: t) := by
    rw [strData_append, strData_append, strData_append, ht]
    rfl
  unfold leadLocaleCount
  rw [hdata, splitSlashL, if_pos rfl, splitSlashL_append_seg lang.data t hlslash]
  show countLeadSeg lang.data (lang.data :: splitSlashL t) = 1
  rw [countLeadSeg, if_pos rfl]
  have hzero : countLeadSeg lang.data (splitSlashL t) = 0 := by
    obtain ⟨ss, hss⟩ := splitSlashL_head t
    rw [hss, countLeadSeg]
    split
    · exfalso
      rename_i heq
      have hdw := List.takeWhile_append_dropWhile (fun c => c != '/') t
      rw [heq] at hdw
      have hrest : String.mk (t.dropWhile (fun c => c != '/')) = ""
          ∨ strStartsWith (String.mk (t.dropWhile (fun c => c != '/'))) "/" = true := by
        cases hdw2 : t.dropWhile (fun c => c != '/') with
        | nil => exact Or.inl rfl
        | cons d ds =>
          have hd := dropWhile_head_not hdw2
          have : d = '/' := by simpa using hd
          subst this
          exact Or.inr (by simp [strStartsWith, isPrefixOfL])
      have hhref : href = "/" ++ lang ++ String.mk (t.dropWhile (fun c => c != '/')) := by
        apply strExt
        rw [strData_append, strData_append, ht]
        show '/' :: t = ('/' :: lang.data) ++ t.dropWhile (fun c => c != '/')
        rw [List.cons_append, hdw]
      have := isLangScoped_of_seg "" langs lang
        (String.mk (t.dropWhile (fun c => c != '/'))) href hl hrest (Or.inr hhref)
      rw [h3] at this
      exact Bool.false_ne_true this
    · rfl
  rw [hzero]

/-- C3 (amended): for an internal-rewritable href (all guards fail) the
rewriter produces `basePath + "/" + locale + (href with the base-path
prefix stripped)` when the href starts with `/`, and
`locale + "/" + href` otherwise; `/about.html` for locale `fr` with empty
base path becomes `/fr/about.html`; and with an empty base path every
rewritten absolute href carries the target locale as its leading path
segment exactly once. A relative href whose first segment already equals
the locale is prefixed again (see the counterexample), so the
exactly-once guarantee is restricted to absolute hrefs. -/
theorem linkRewriter_internal_rewrite (basePath : String) (langs : List String)
    (lang href : String)
    (h1 : (strStartsWith href "http" || strStartsWith href "//" || strStartsWith href "#"
        || strStartsWith href "mailto:" || strStartsWith href "tel:"
        || strStartsWith href "javascript:") = false)
    (h2 : (strStartsWith href "/assets/" || strContainsSub href "/assets/") = false)
    (h3 : isLangScoped basePath langs href = false) :
    (strStartsWith href "/" = true →
        rewriteHref basePath langs lang href
          = basePath ++ "/" ++ lang ++ stripBaseOpt basePath href)
  ∧ (strStartsWith href "/" = false → href ≠ "" →
        rewriteHref basePath langs lang href = lang ++ "/" ++ href)
  ∧ rewriteHref "" ["en", "fr", "de"] "fr" "/about.html" = "/fr/about.html"
  ∧ (basePath = "" → strStartsWith href "/" = true → (∀ c ∈ lang.data, c ≠ '/') →
        lang ∈ langs →
        leadLocaleCount lang (rewriteHref basePath langs lang href) = 1) := by
  refine ⟨fun h4 => rewriteHref_rewritable_abs basePath langs lang href h1 h2 h3 h4,
          fun h4 hne => rewriteHref_rewritable_rel basePath langs lang href h1 h2 h3 h4 hne,
          by decide,
          fun hbp h4 hsl hl => ?_⟩
  subst hbp
  exact rewriteHref_abs_single_lead langs lang href hsl hl h1 h2 h3 h4

theorem linkRewriter_internal_rewrite_witness :
    ((strStartsWith "/about.html" "http" || strStartsWith "/about.html" "//"
        || strStartsWith "/about.html" "#" || strStartsWith "/about.html" "mailto:"
        || strStartsWith "/about.html" "tel:" || strStartsWith "/about.html" "javascript:") = false
      ∧ (strStartsWith "/about.html" "/assets/"
          || strContainsSub "/about.html" "/assets/") = false
      ∧ isLangScoped "" ["en", "fr", "de"] "/about.html" = false
      ∧ strStartsWith "/about.html" "/" = true)
  ∧ rewriteHref "" ["en", "fr", "de"] "fr" "/about.html"
      = "" ++ "/" ++ "fr" ++ stripBaseOpt "" "/about.html"
  ∧ leadLocaleCount "fr" (rewriteHref "" ["en", "fr", "de"] "fr" "/about.html") = 1 :=
  ⟨⟨by decide, by decide, by decide, by decide⟩,
   (linkRewriter_internal_rewrite "" ["en", "fr", "de"] "fr" "/about.html"
      (by decide) (by decide) (by decide)).1 (by decide),
   (linkRewriter_internal_rewrite "" ["en", "fr", "de"] "fr" "/about.html"
      (by decide) (by decide) (by decide)).2.2.2 rfl (by decide) (by decide) (by decide)⟩

/-! ## Frame lemmas: metadata injection does not touch links or anchors -/

theorem injectTitle_links (e : ToolsEntry) (d : Doc) : (injectTitle e d).links = d.links := by
  unfold injectTitle
  split
  · split <;> rfl
  · rfl

theorem injectDesc_links (e : ToolsEntry) (d : Doc) : (injectDesc e d).links = d.links := by
  unfold injectDesc
  split
  · split <;> rfl
  · rfl

theorem injectMetadata_links (tools : List (String × ToolsEntry)) (key : String) (d : Doc) :
    (injectMetadata tools key d).links = d.links := by
  unfold injectMetadata
  split
  · rfl
  · rw [injectDesc_links, injectTitle_links]

/-! ## The alternate/canonical block -/

theorem isAltHreflang_mkAlternates (s bp p : String) (langs : List String) :
    ∀ x ∈ mkAlternates s bp p langs, isAltHreflang x = true := by
  intro x hx
  unfold mkAlternates at hx
  rcases List.mem_append.mp hx with hx | hx
  · obtain ⟨l, hl, he⟩ := List.mem_map.mp hx
    rw [← he]
    rfl
  · rw [List.mem_singleton] at hx
    rw [hx]
    rfl

theorem filter_alt_setFirstCanonical (u : String) (ls : List LinkEl) :
    (setFirstCanonicalHref u ls).filter isAltHreflang = ls.filter isAltHreflang := by
  induction ls with
  | nil => rfl
  | cons l rest ih =>
    unfold setFirstCanonicalHref
    by_cases hc : l.rel = "canonical"
    · rw [if_pos hc]
      have h1 : isAltHreflang { l with href := u } = false := by
        simp [isAltHreflang, hc]
      have h2 : isAltHreflang l = false := by
        simp [isAltHreflang, hc]
      simp [List.filter_cons, h1, h2]
    · rw [if_neg hc]
      simp only [List.filter_cons, ih]

theorem countP_canonical_setFirstCanonical (u : String) (ls : List LinkEl) :
    (setFirstCanonicalHref u ls).countP (fun l => l.rel == "canonical")
      = ls.countP (fun l => l.rel == "canonical") := by
  induction ls with
  | nil => rfl
  | cons l rest ih =>
    unfold setFirstCanonicalHref
    by_cases hc : l.rel = "canonical"
    · rw [if_pos hc]
      simp [List.countP_cons, hc]
    · rw [if_neg hc]
      simp only [List.countP_cons, ih]

theorem countP_canonical_removeAlt (ls : List LinkEl) :
    (removeAltHreflang ls).countP (fun l => l.rel == "canonical")
      = ls.countP (fun l => l.rel == "canonical") := by
  unfold removeAltHreflang
  rw [List.countP_filter]
  apply List.countP_congr
  intro a ha
  by_cases hr : a.rel = "canonical"
  · simp [isAltHreflang, hr]
  · simp [hr]

theorem countP_canonical_mkAlternates (s bp p : String) (langs : List String) :
    (mkAlternates s bp p langs).countP (fun l => l.rel == "canonical") = 0 := by
  rw [List.countP_eq_zero]
  intro a ha
  have halt := isAltHreflang_mkAlternates s bp p langs a ha
  simp only [isAltHreflang, Bool.and_eq_true, beq_iff_eq] at halt
  simp [halt.1]

theorem filter_alt_removeAlt_append (ls alts : List LinkEl)
    (halts : ∀ x ∈ alts, isAltHreflang x = true) :
    (removeAltHreflang ls ++ alts).filter isAltHreflang = alts := by
  rw [List.filter_append]
  have h1 : (removeAltHreflang ls).filter isAltHreflang = [] := by
    unfold removeAltHreflang
    rw [List.filter_filter]
    apply List.filter_eq_nil_iff.mpr
    intro a ha
    simp
  have h2 : alts.filter isAltHreflang = alts := List.filter_eq_self.mpr halts
  rw [h1, h2, List.nil_append]

theorem applyAlternates_spec (s bp p lang : String) (langs : List String) (d : Doc)
    (hcanon : d.links.countP (fun l => l.rel == "canonical") ≤ 1) :
    ((applyAlternates s bp p lang langs d).links.filter isAltHreflang
        = mkAlternates s bp p langs)
  ∧ (applyAlternates s bp p lang langs d).links.countP
      (fun l => l.rel == "canonical") = 1 := by
  unfold applyAlternates
  dsimp only
  split
  case isTrue hc =>
    constructor
    · rw [filter_alt_setFirstCanonical]
      exact filter_alt_removeAlt_append d.links _ (isAltHreflang_mkAlternates s bp p langs)
    · rw [countP_canonical_setFirstCanonical, List.countP_append,
          countP_canonical_removeAlt, countP_canonical_mkAlternates]
      unfold hasCanonical at hc
      rw [List.any_eq_true] at hc
      obtain ⟨a, ha, hca⟩ := hc
      rcases List.mem_append.mp ha with ha | ha
      · have h0 : 0 < (removeAltHreflang d.links).countP (fun l => l.rel == "canonical") :=
          List.countP_pos_iff.mpr ⟨a, ha, hca⟩
        rw [countP_canonical_removeAlt] at h0
        omega
      · exfalso
        have := countP_canonical_mkAlternates s bp p langs
        have h0 : 0 < (mkAlternates s bp p langs).countP (fun l => l.rel == "canonical") :=
          List.countP_pos_iff.mpr ⟨a, ha, hca⟩
        omega
  case isFalse hc =>
    constructor
    · rw [List.filter_append]
      rw [filter_alt_removeAlt_append d.links _ (isAltHreflang_mkAlternates s bp p langs)]
      simp [isAltHreflang]
    · rw [List.countP_append, List.countP_append,
          countP_canonical_removeAlt, countP_canonical_mkAlternates]
      have h0 : d.links.countP (fun l => l.rel == "canonical") = 0 := by
        by_contra hne
        apply hc
        unfold hasCanonical
        rw [List.any_eq_true]
        have hpos : 0 < d.links.countP (fun l => l.rel == "canonical") :=
          Nat.pos_of_ne_zero hne
        obtain ⟨a, ha, hca⟩ := List.countP_pos_iff.mp hpos
        refine ⟨a, List.mem_append.mpr (Or.inl ?_), hca⟩
        unfold removeAltHreflang
        rw [List.mem_filter]
        refine ⟨ha, ?_⟩
        have : a.rel = "canonical" := by simpa using hca
        simp [isAltHreflang, this]
      rw [h0]
      rfl

theorem mkAlternates_length (s bp p : String) (langs : List String) :
    (mkAlternates s bp p langs).length = langs.length + 1 := by
  unfold mkAlternates
  simp

theorem mkAlternates_hreflang_nodup (s bp p : String) (langs : List String)
    (hnd : langs.Nodup) (hxd : "x-default" ∉ langs) :
    ((mkAlternates s bp p langs).map LinkEl.hreflang).Nodup := by
  unfold mkAlternates
  rw [List.map_append, List.map_map]
  have hcomp : (LinkEl.hreflang ∘ fun l =>
      ({ rel := "alternate", hreflang := some l
         href := buildUrl s bp (if l = "en" then "" else l) p } : LinkEl))
      = fun l => some l := rfl
  rw [hcomp]
  rw [List.nodup_append]
  refine ⟨hnd.map (Option.some_injective String), ?_, ?_⟩
  · simp
  · intro a ha hb
    simp only [List.map_cons, List.map_nil, List.mem_singleton] at hb
    subst hb
    obtain ⟨l, hl, he⟩ := List.mem_map.mp ha
    cases Option.some.inj he
    exact hxd hl

/-- C1: in every localized output document the alternate-hreflang link set
is exactly the freshly generated one (one link per discovered locale plus
one `x-default`, none inherited from the source document), so it has
`|locales| + 1` members with pairwise distinct `hreflang` values, and the
document has exactly one canonical link. Hypotheses: the discovered locale
codes are distinct directory names, none of them is the literal
`x-default`, and the source page carries at most one canonical link. -/
theorem localized_alternate_canonical_invariant (cfg : SiteConfig) (langs : List String)
    (lang file : String) (b : LocaleBundles) (d : Doc)
    (hnd : langs.Nodup) (hxd : "x-default" ∉ langs)
    (hcanon : d.links.countP (fun l => l.rel == "canonical") ≤ 1)
    (_hlang : lang ∈ langs) (_hne : lang ≠ "en") :
    ((processLocalized cfg langs lang file b d).links.filter isAltHreflang
        = mkAlternates cfg.siteURL cfg.basePath (pagePathOf file) langs)
  ∧ ((processLocalized cfg langs lang file b d).links.filter isAltHreflang).length
        = langs.length + 1
  ∧ (((processLocalized cfg langs lang file b d).links.filter isAltHreflang).map
        LinkEl.hreflang).Nodup
  ∧ (processLocalized cfg langs lang file b d).links.countP
        (fun l => l.rel == "canonical") = 1 := by
  have hl2 : (processLocalized cfg langs lang file b d).links
      = (applyAlternates cfg.siteURL cfg.basePath (pagePathOf file) lang langs
          (injectMetadata b.tools (translationKeyOf file) { d with htmlLang := lang })).links :=
    rfl
  have hcanon2 : (injectMetadata b.tools (translationKeyOf file)
        { d with htmlLang := lang }).links.countP (fun l => l.rel == "canonical") ≤ 1 := by
    rw [injectMetadata_links]
    exact hcanon
  obtain ⟨hfa, hcp⟩ := applyAlternates_spec cfg.siteURL cfg.basePath (pagePathOf file)
    lang langs _ hcanon2
  refine ⟨?_, ?_, ?_, ?_⟩
  · rw [hl2]
    exact hfa
  · rw [hl2, hfa]
    exact mkAlternates_length cfg.siteURL cfg.basePath (pagePathOf file) langs
  · rw [hl2, hfa]
    exact mkAlternates_hreflang_nodup cfg.siteURL cfg.basePath (pagePathOf file) langs hnd hxd
  · rw [hl2]
    exact hcp

theorem localized_alternate_canonical_invariant_witness :
    (langsW.Nodup ∧ "x-default" ∉ langsW
      ∧ docW.links.countP (fun l => l.rel == "canonical") ≤ 1
      ∧ "fr" ∈ langsW ∧ "fr" ≠ "en")
  ∧ ((processLocalized siteCfgW langsW "fr" "about.html" bundlesW docW).links.filter
        isAltHreflang).length = langsW.length + 1
  ∧ (processLocalized siteCfgW langsW "fr" "about.html" bundlesW docW).links.countP
        (fun l => l.rel == "canonical") = 1 :=
  ⟨⟨by decide, by decide, by decide, by decide, by decide⟩,
   (localized_alternate_canonical_invariant siteCfgW langsW "fr" "about.html" bundlesW docW
      (by decide) (by decide) (by decide) (by decide) (by decide)).2.1,
   (localized_alternate_canonical_invariant siteCfgW langsW "fr" "about.html" bundlesW docW
      (by decide) (by decide) (by decide) (by decide) (by decide)).2.2.2⟩

/-- C7: the second pass over the original default-locale file only
refreshes the alternate-hreflang link set: the title, the metadata tags,
the root language attribute, every anchor href and every
non-alternate-hreflang link (including the canonical link) are exactly as
in the source document, the alternate-hreflang links are exactly the
regenerated set, and in the full run the default-locale output for a page
is produced by this pass from the source document. -/
theorem default_file_refresh_frame (s bp p : String) (langs : List String) (d : Doc) :
    (refreshAlternatesOnly s bp p langs d).title = d.title
  ∧ (refreshAlternatesOnly s bp p langs d).metas = d.metas
  ∧ (refreshAlternatesOnly s bp p langs d).htmlLang = d.htmlLang
  ∧ (refreshAlternatesOnly s bp p langs d).anchors = d.anchors
  ∧ (refreshAlternatesOnly s bp p langs d).links.filter (fun l => !(isAltHreflang l))
      = d.links.filter (fun l => !(isAltHreflang l))
  ∧ (refreshAlternatesOnly s bp p langs d).links.filter isAltHreflang
      = mkAlternates s bp p langs
  ∧ (∀ (cfg : SiteConfig) (bundles : String → LocaleBundles)
        (pages : List (String × Doc)) (file : String) (dd : Doc),
        (file, dd) ∈ pages →
        (("", file),
          refreshAlternatesOnly cfg.siteURL cfg.basePath (pagePathOf file) langs dd)
          ∈ fullRun cfg langs bundles pages) := by
  refine ⟨rfl, rfl, rfl, rfl, ?_, ?_, ?_⟩
  · unfold refreshAlternatesOnly removeAltHreflang
    dsimp only
    rw [List.filter_append, List.filter_filter]
    have hfun : (fun (a : LinkEl) => !isAltHreflang a && !isAltHreflang a)
        = fun a => !isAltHreflang a := by
      funext a
      exact Bool.and_self _
    rw [hfun]
    have h6 : (mkAlternates s bp p langs).filter (fun l => !(isAltHreflang l)) = [] := by
      apply List.filter_eq_nil_iff.mpr
      intro a ha
      rw [isAltHreflang_mkAlternates s bp p langs a ha]
      simp
    rw [h6, List.append_nil]
  · exact filter_alt_removeAlt_append d.links _ (isAltHreflang_mkAlternates s bp p langs)
  · intro cfg bundles pages file dd hp
    unfold fullRun
    rw [List.mem_flatMap]
    refine ⟨(file, dd), hp, ?_⟩
    apply List.mem_append_right
    simp

theorem default_file_refresh_frame_witness :
    (("about.html", docW) ∈ [("about.html", docW)])
  ∧ (("", "about.html"),
      refreshAlternatesOnly siteCfgW.siteURL siteCfgW.basePath (pagePathOf "about.html")
        langsW docW)
      ∈ fullRun siteCfgW langsW (fun _ => bundlesW) [("about.html", docW)] :=
  ⟨by decide,
   (default_file_refresh_frame siteCfgW.siteURL siteCfgW.basePath (pagePathOf "about.html")
      langsW docW).2.2.2.2.2.2 siteCfgW (fun _ => bundlesW) [("about.html", docW)]
      "about.html" docW (by decide)⟩

/-! ## Purity of the pipeline -/

theorem processLocalized_tools_only (cfg : SiteConfig) (langs : List String)
    (lang file : String) (b1 b2 : LocaleBundles) (d : Doc)
    (h : b1.tools = b2.tools) :
    processLocalized cfg langs lang file b1 d = processLocalized cfg langs lang file b2 d := by
  unfold processLocalized
  rw [h]

theorem fullRun_congr_bundles (cfg : SiteConfig) (langs : List String)
    (b1 b2 : String → LocaleBundles) (pages : List (String × Doc))
    (h : ∀ l ∈ langs, (b1 l).tools = (b2 l).tools) :
    fullRun cfg langs b1 pages = fullRun cfg langs b2 pages := by
  induction pages with
  | nil => rfl
  | cons pg rest ih =>
    show ((langs.filter (fun l => l != "en")).map (fun lang =>
          ((lang, pg.1), processLocalized cfg langs lang pg.1 (b1 lang) pg.2))
        ++ [(("", pg.1),
             refreshAlternatesOnly cfg.siteURL cfg.basePath (pagePathOf pg.1) langs pg.2)])
        ++ fullRun cfg langs b1 rest
      = ((langs.filter (fun l => l != "en")).map (fun lang =>
          ((lang, pg.1), processLocalized cfg langs lang pg.1 (b2 lang) pg.2))
        ++ [(("", pg.1),
             refreshAlternatesOnly cfg.siteURL cfg.basePath (pagePathOf pg.1) langs pg.2)])
        ++ fullRun cfg langs b2 rest
    rw [ih]
    congr 1
    congr 1
    apply List.map_congr_left
    intro lang hlang
    have hl : lang ∈ langs := (List.mem_filter.mp hlang).1
    rw [processLocalized_tools_only cfg langs lang pg.1 (b1 lang) (b2 lang) pg.2 (h lang hl)]

/-- C6: the written output for a (page, locale) pair is a pure function of
the source document, the locale, the locale's translation bundles and the
site configuration: the full run contains, for every enumerated page and
every non-default locale, exactly the document `processLocalized` computes
from those four inputs; and two runs over the same pages whose bundle
functions agree on every discovered locale produce identical output lists
(re-running against unchanged inputs is byte-identical after the
deterministic serializer). -/
theorem pipeline_pure_function (cfg : SiteConfig) (langs : List String) :
    (∀ (bundles : String → LocaleBundles) (pages : List (String × Doc))
        (file : String) (d : Doc) (lang : String),
        (file, d) ∈ pages → lang ∈ langs → lang ≠ "en" →
        ((lang, file), processLocalized cfg langs lang file (bundles lang) d)
          ∈ fullRun cfg langs bundles pages)
  ∧ (∀ (b1 b2 : String → LocaleBundles) (pages : List (String × Doc)),
        (∀ l ∈ langs, b1 l = b2 l) →
        fullRun cfg langs b1 pages = fullRun cfg langs b2 pages) := by
  constructor
  · intro bundles pages file d lang hp hl hne
    unfold fullRun
    rw [List.mem_flatMap]
    refine ⟨(file, d), hp, ?_⟩
    apply List.mem_append_left
    rw [List.mem_map]
    refine ⟨lang, ?_, rfl⟩
    rw [List.mem_filter]
    exact ⟨hl, by simpa using hne⟩
  · intro b1 b2 pages h
    exact fullRun_congr_bundles cfg langs b1 b2 pages
      (fun l hl => by rw [h l hl])

theorem pipeline_pure_function_witness :
    (("about.html", docW) ∈ [("about.html", docW)] ∧ "fr" ∈ langsW
      ∧ ("fr" : String) ≠ "en" ∧ (∀ l ∈ langsW, bundlesW = bundlesW))
  ∧ (("fr", "about.html"),
      processLocalized siteCfgW langsW "fr" "about.html" bundlesW docW)
      ∈ fullRun siteCfgW langsW (fun _ => bundlesW) [("about.html", docW)]
  ∧ fullRun siteCfgW langsW (fun _ => bundlesW) [("about.html", docW)]
      = fullRun siteCfgW langsW (fun _ => bundlesW) [("about.html", docW)] :=
  ⟨⟨by decide, by decide, by decide, fun _ _ => rfl⟩,
   (pipeline_pure_function siteCfgW langsW).1 (fun _ => bundlesW) [("about.html", docW)]
     "about.html" docW "fr" (by decide) (by decide) (by decide),
   (pipeline_pure_function siteCfgW langsW).2 (fun _ => bundlesW) (fun _ => bundlesW)
     [("about.html", docW)] (fun _ _ => rfl)⟩

/-- C10: the generated output never depends on a locale's `common.json`
bundle: the script parses it but reads nothing from it, so two runs whose
bundle functions agree on every locale's tools bundle — whatever their
common bundles hold — produce identical output lists. -/
theorem output_independent_of_common_bundle (cfg : SiteConfig) (langs : List String)
    (b1 b2 : String → LocaleBundles) (pages : List (String × Doc))
    (h : ∀ l ∈ langs, (b1 l).tools = (b2 l).tools) :
    fullRun cfg langs b1 pages = fullRun cfg langs b2 pages :=
  fullRun_congr_bundles cfg langs b1 b2 pages h

theorem output_independent_of_common_bundle_witness :
    (∀ l ∈ langsW,
      (({ common := [("k2", "other")], tools := bundlesW.tools } : LocaleBundles)).tools
        = bundlesW.tools)
  ∧ fullRun siteCfgW langsW
      (fun _ => { common := [("k2", "other")], tools := bundlesW.tools })
      [("about.html", docW)]
      = fullRun siteCfgW langsW (fun _ => bundlesW) [("about.html", docW)] :=
  ⟨fun _ _ => rfl,
   output_independent_of_common_bundle siteCfgW langsW
     (fun _ => { common := [("k2", "other")], tools := bundlesW.tools })
     (fun _ => bundlesW) [("about.html", docW)] (fun _ _ => rfl)⟩

/-! ## URL construction -/

theorem strDataNe (s : String) (h : s ≠ "") : s.data ≠ [] := by
  intro hd
  exact h (strExt s "" hd)

theorem dropTrailingSlashes_of_getLast (s : String)
    (h : s.data.getLast? ≠ some '/') :
    dropTrailingSlashes s = s := by
  unfold dropTrailingSlashes
  cases hr : s.data.reverse with
  | nil =>
    have h0 : s.data = [] := by
      have := congrArg List.reverse hr
      simpa using this
    show String.mk [] = s
    exact strExt _ _ (by rw [h0])
  | cons c t =>
    have hc : s.data.getLast? = some c := by
      rw [← List.head?_reverse, hr]
      rfl
    have hcf : (c == '/') = false := by
      have hne : c ≠ '/' := fun he => h (by rw [hc, he])
      simpa using hne
    rw [List.dropWhile_cons, hcf]
    simp only [Bool.false_eq_true, if_false]
    rw [← hr, List.reverse_reverse]

theorem dropTrailingSlashes_getLast_ne (s : String) :
    (dropTrailingSlashes s).data.getLast? ≠ some '/' := by
  intro h
  unfold dropTrailingSlashes at h
  rw [show (String.mk ((s.data.reverse.dropWhile (fun c => c == '/')).reverse)).data
      = (s.data.reverse.dropWhile (fun c => c == '/')).reverse from rfl,
    List.getLast?_reverse] at h
  cases hdw : s.data.reverse.dropWhile (fun c => c == '/') with
  | nil => rw [hdw] at h; simp at h
  | cons d ds =>
    rw [hdw] at h
    have hd : (d == '/') = false :=
      @dropWhile_head_not (fun c => c == '/') s.data.reverse d ds hdw
    have hdc : d = '/' := by simpa using h
    rw [hdc] at hd
    simp at hd

theorem dropOneLeadingSlash_getLast (p : String) :
    (dropOneLeadingSlash p).data.getLast? = p.data.getLast?
  ∨ (dropOneLeadingSlash p).data = [] := by
  unfold dropOneLeadingSlash
  by_cases hs : strStartsWith p "/" = true
  · rw [if_pos hs]
    obtain ⟨t, ht⟩ := strStartsWith_slash_shape p hs
    have hdata : (strDropN p 1).data = t := by
      unfold strDropN
      rw [ht]
      rfl
    cases hte : t with
    | nil => exact Or.inr (by rw [hdata, hte])
    | cons x xs =>
      left
      rw [hdata, ht, hte]
      rw [show ('/' :: x :: xs : List Char) = ['/'] ++ (x :: xs) from rfl]
      rw [List.getLast?_append_of_ne_nil]
      simp
  · rw [if_neg hs]
    exact Or.inl rfl

theorem strAppendNeEmpty_right (a b : String) (h : b ≠ "") : a ++ b ≠ "" := by
  intro he
  apply h
  apply strExt b ""
  have h2 : (a ++ b).data = [] := by rw [he]
  rw [strData_append] at h2
  exact (List.append_eq_nil.mp h2).2

theorem getLast_append_str (a b : String) (hb : b ≠ "") :
    (a ++ b).data.getLast? = b.data.getLast? := by
  rw [strData_append]
  exact List.getLast?_append_of_ne_nil a.data (strDataNe b hb)

theorem buildUrl_all_parts (s b l p : String)
    (hs : s ≠ "") (hb : b ≠ "") (hdb : dropOneLeadingSlash b ≠ "")
    (hl : l ≠ "") (hp : p ≠ "") (hdp : dropOneLeadingSlash p ≠ "")
    (hplast : p.data.getLast? ≠ some '/') :
    buildUrl s b l p
      = s ++ "/" ++ (dropOneLeadingSlash b ++ "/" ++ (l ++ "/" ++ dropOneLeadingSlash p)) := by
  have hs' : (s != "") = true := by simpa using hs
  have hdb' : (dropOneLeadingSlash b != "") = true := by simpa using hdb
  have hl' : (l != "") = true := by simpa using hl
  have hdp' : (dropOneLeadingSlash p != "") = true := by simpa using hdp
  have hdplast : (dropOneLeadingSlash p).data.getLast? ≠ some '/' := by
    rcases dropOneLeadingSlash_getLast p with heq | hnil
    · rw [heq]
      exact hplast
    · rw [hnil]
      simp
  have hR3 : l ++ "/" ++ dropOneLeadingSlash p ≠ "" := strAppendNeEmpty_right _ _ hdp
  have hR2 : dropOneLeadingSlash b ++ "/" ++ (l ++ "/" ++ dropOneLeadingSlash p) ≠ "" :=
    strAppendNeEmpty_right _ _ hR3
  have hX : s ++ "/" ++ (dropOneLeadingSlash b ++ "/" ++ (l ++ "/" ++ dropOneLeadingSlash p))
      ≠ "" := strAppendNeEmpty_right _ _ hR2
  have hXlast : (s ++ "/"
        ++ (dropOneLeadingSlash b ++ "/" ++ (l ++ "/" ++ dropOneLeadingSlash p))).data.getLast?
      ≠ some '/' := by
    rw [getLast_append_str _ _ hR2, getLast_append_str _ _ hR3, getLast_append_str _ _ hdp]
    exact hdplast
  unfold buildUrl
  simp only [if_neg hb, if_neg hl, if_neg hp, List.cons_append, List.nil_append,
    List.filter_cons, hs', hdb', hl', hdp', if_true, List.filter_nil, joinSlash]
  rw [dropTrailingSlashes_of_getLast _ hXlast, if_neg hX]

theorem buildUrl_bare_fr (s : String) (hs : s ≠ "") :
    buildUrl s "" "fr" "" = s ++ "/fr" := by
  have hs' : (s != "") = true := by simpa using hs
  have hfr' : (("fr" : String) != "") = true := by decide
  have hne : s ++ "/" ++ "fr" ≠ "" := strAppendNeEmpty_right _ _ (by decide)
  have hlast : (s ++ "/" ++ "fr").data.getLast? ≠ some '/' := by
    rw [getLast_append_str (s ++ "/") "fr" (by decide)]
    decide
  unfold buildUrl
  simp only [List.cons_append, List.nil_append, List.append_nil,
    List.filter_cons, hs', hfr', if_true, List.filter_nil, joinSlash]
  rw [dropTrailingSlashes_of_getLast _ hlast, if_neg hne]
  apply strExt
  rw [strData_append, strData_append, List.append_assoc]
  rfl

theorem mkAlternates_en_unprefixed (s bp p : String) (langs : List String) :
    ∀ lk ∈ mkAlternates s bp p langs, lk.hreflang = some "en" →
      lk.href = buildUrl s bp "" p := by
  intro lk hlk he
  unfold mkAlternates at hlk
  rcases List.mem_append.mp hlk with h | h
  · obtain ⟨l, hl, hlk2⟩ := List.mem_map.mp h
    rw [← hlk2] at he ⊢
    have hlen : l = "en" := by simpa using he
    show buildUrl s bp (if l = "en" then "" else l) p = buildUrl s bp "" p
    rw [if_pos hlen]
  · rw [List.mem_singleton] at h
    subst h
    have hxe : ("x-default" : String) = "en" := by
      simp at he
    exact absurd hxe (by decide)

theorem ite_getLast_ne_slash (c : Prop) [Decidable c] (s t : String)
    (hs : s.data.getLast? ≠ some '/') (ht : t.data.getLast? ≠ some '/') :
    (if c then s else t).data.getLast? ≠ some '/' := by
  split
  · exact hs
  · exact ht

theorem buildUrl_getLast_ne_slash (s b l p : String)
    (hs : s.data.getLast? ≠ some '/') :
    (buildUrl s b l p).data.getLast? ≠ some '/' := by
  unfold buildUrl
  dsimp only
  exact ite_getLast_ne_slash _ _ _ hs (dropTrailingSlashes_getLast_ne _)

/-- C5: `buildUrl` joins site URL, base path (leading slash stripped),
locale prefix and route with `/` (when all are non-empty and clean); the
generated alternate link for the default locale `en` always uses the empty
prefix, so the default locale is never prefixed; the result never ends in a
slash when the site URL does not; the route derived for `index.html` is
empty; and the URL built for locale `fr` on the index route is
`siteURL ++ "/fr"` with no trailing index segment. -/
theorem buildUrl_spec :
    (∀ s b l p : String, s ≠ "" → b ≠ "" → dropOneLeadingSlash b ≠ "" → l ≠ "" →
        p ≠ "" → dropOneLeadingSlash p ≠ "" → p.data.getLast? ≠ some '/' →
        buildUrl s b l p
          = s ++ "/" ++ (dropOneLeadingSlash b ++ "/" ++ (l ++ "/" ++ dropOneLeadingSlash p)))
  ∧ (∀ (s bp p : String) (langs : List String), ∀ lk ∈ mkAlternates s bp p langs,
        lk.hreflang = some "en" → lk.href = buildUrl s bp "" p)
  ∧ (∀ s b l p : String, s.data.getLast? ≠ some '/' →
        (buildUrl s b l p).data.getLast? ≠ some '/')
  ∧ pagePathOf "index.html" = ""
  ∧ (∀ s : String, s ≠ "" → buildUrl s "" "fr" (pagePathOf "index.html") = s ++ "/fr") := by
  refine ⟨buildUrl_all_parts, mkAlternates_en_unprefixed, buildUrl_getLast_ne_slash,
    by decide, ?_⟩
  intro s hs
  rw [show pagePathOf "index.html" = "" from by decide]
  exact buildUrl_bare_fr s hs

theorem buildUrl_spec_witness :
    (("https://bentopdf.com" : String) ≠ "" ∧ ("/app" : String) ≠ ""
      ∧ dropOneLeadingSlash "/app" ≠ "" ∧ ("fr" : String) ≠ "" ∧ ("pricing" : String) ≠ ""
      ∧ dropOneLeadingSlash "pricing" ≠ ""
      ∧ ("pricing" : String).data.getLast? ≠ some '/'
      ∧ ("https://bentopdf.com" : String).data.getLast? ≠ some '/')
  ∧ buildUrl "https://bentopdf.com" "/app" "fr" "pricing"
      = "https://bentopdf.com" ++ "/" ++ (dropOneLeadingSlash "/app" ++ "/"
          ++ ("fr" ++ "/" ++ dropOneLeadingSlash "pricing"))
  ∧ buildUrl "https://bentopdf.com" "" "fr" (pagePathOf "index.html")
      = "https://bentopdf.com" ++ "/fr" :=
  ⟨⟨by decide, by decide, by decide, by decide, by decide, by decide, by decide, by decide⟩,
   buildUrl_spec.1 "https://bentopdf.com" "/app" "fr" "pricing" (by decide) (by decide)
     (by decide) (by decide) (by decide) (by decide) (by decide),
   buildUrl_spec.2.2.2.2 "https://bentopdf.com" (by decide)⟩

/-! ## Key resolution -/

theorem isPrefixOfL_html_boundary (c : Char) (s : List Char)
    (h : isPrefixOfL ".html".data ((c :: s) ++ ".html".data) = true) :
    isPrefixOfL ".html".data (c :: s) = true := by
  match s with
  | [] => exfalso; simp [isPrefixOfL] at h
  | [c2] => exfalso; simp [isPrefixOfL] at h
  | [c2, c3] => exfalso; simp [isPrefixOfL] at h
  | [c2, c3, c4] => exfalso; simp [isPrefixOfL] at h
  | c2 :: c3 :: c4 :: c5 :: rest =>
    simp [isPrefixOfL] at h ⊢
    tauto

theorem replaceFirst_html_append (stem : List Char)
    (h : containsSubL ".html".data stem = false) :
    replaceFirstL ".html".data [] (stem ++ ".html".data) = stem := by
  induction stem with
  | nil =>
    show replaceFirstL ".html".data [] ".html".data = []
    decide
  | cons c s ih =>
    rw [containsSubL] at h
    have h1 : isPrefixOfL ".html".data (c :: s) = false := by
      cases hp : isPrefixOfL ".html".data (c :: s) <;> simp_all
    have h2 : containsSubL ".html".data s = false := by
      cases hp : containsSubL ".html".data s <;> simp_all
    show replaceFirstL ".html".data [] (c :: (s ++ ".html".data)) = c :: s
    rw [replaceFirstL]
    have hnp : isPrefixOfL ".html".data (c :: (s ++ ".html".data)) = false := by
      cases hp : isPrefixOfL ".html".data (c :: (s ++ ".html".data))
      · rfl
      · exfalso
        have hb := isPrefixOfL_html_boundary c s hp
        rw [h1] at hb
        exact Bool.false_ne_true hb
    rw [hnp]
    simp only [Bool.false_eq_true, if_false]
    rw [ih h2]

theorem filenameNoExt_append_html (stem : String)
    (h : strContainsSub stem ".html" = false) :
    filenameNoExt (stem ++ ".html") = stem := by
  unfold filenameNoExt replaceFirstStr
  apply strExt
  show replaceFirstL ".html".data [] ((stem ++ ".html").data) = stem.data
  rw [strData_append]
  exact replaceFirst_html_append stem.data h

/-- C8 (counterexample): for the enumerable page filename `x.htmla.html`
the script removes the first occurrence of `.html` and resolves the
translation key `xa.html`, while stripping the extension as the claim
describes would resolve `x.htmla`. -/
theorem translationKey_strips_first_occurrence :
    translationKeyOf "x.htmla.html" = "xa.html"
  ∧ specTranslationKey "x.htmla.html" = "x.htmla"
  ∧ ("xa.html" : String) ≠ "x.htmla"
  ∧ strEndsWith "x.htmla.html" ".html" = true := by
  decide

/-- C8 (amended): the translation key is computed deterministically by
removing the first occurrence of `.html` (which strips the extension
whenever the stem contains no `.html` substring), camel-casing the result,
and letting an explicit override entry on the stripped name win;
`404.html` resolves to `notFound`, `index.html` to `home`, and kebab-case
stems are camel-cased. -/
theorem translationKey_spec (stem : String) (h : strContainsSub stem ".html" = false) :
    translationKeyOf (stem ++ ".html")
      = (match lookupAssoc stem KEY_MAPPING with
         | some k => k
         | none => toCamelCase stem)
  ∧ translationKeyOf "404.html" = "notFound"
  ∧ translationKeyOf "index.html" = "home"
  ∧ toCamelCase "merge-pdf" = "mergePdf" := by
  refine ⟨?_, by decide, by decide, by decide⟩
  unfold translationKeyOf
  rw [filenameNoExt_append_html stem h]

theorem translationKey_spec_witness :
    strContainsSub "merge-pdf" ".html" = false
  ∧ translationKeyOf ("merge-pdf" ++ ".html")
      = (match lookupAssoc "merge-pdf" KEY_MAPPING with
         | some k => k
         | none => toCamelCase "merge-pdf") :=
  ⟨by decide, (translationKey_spec "merge-pdf" (by decide)).1⟩

/-! ## Metadata injection -/

theorem findMeta_updateFirstMeta_same (k v : String) (ms : List (String × String)) :
    findMeta k (updateFirstMeta k v ms) = (findMeta k ms).map (fun _ => v) := by
  induction ms with
  | nil => rfl
  | cons kv rest ih =>
    obtain ⟨k2, c⟩ := kv
    by_cases hk : k2 = k
    · simp only [updateFirstMeta, findMeta, if_pos hk]
      rfl
    · simp only [updateFirstMeta, findMeta, if_neg hk]
      exact ih

theorem findMeta_updateFirstMeta_other (k k2 v : String) (ms : List (String × String))
    (h : k ≠ k2) :
    findMeta k (updateFirstMeta k2 v ms) = findMeta k ms := by
  induction ms with
  | nil => rfl
  | cons kv rest ih =>
    obtain ⟨k3, c⟩ := kv
    by_cases hk : k3 = k2
    · have h3 : ¬(k3 = k) := by
        rw [hk]
        exact fun he => h he.symm
      simp only [updateFirstMeta, if_pos hk, findMeta, if_neg h3]
    · simp only [updateFirstMeta, if_neg hk, findMeta]
      by_cases h3 : k3 = k
      · simp only [if_pos h3]
      · simp only [if_neg h3]
        exact ih

theorem injectDesc_title (e : ToolsEntry) (d : Doc) : (injectDesc e d).title = d.title := by
  unfold injectDesc
  split
  · split <;> rfl
  · rfl

theorem applyDesc_other_meta (s : String) (d : Doc) (k : String)
    (hk1 : k ≠ descKey) (hk2 : k ≠ ogDescKey) (hk3 : k ≠ twitterDescKey) :
    findMeta k (applyDesc s d).metas = findMeta k d.metas := by
  unfold applyDesc
  dsimp only
  rw [findMeta_updateFirstMeta_other _ _ _ _ hk3, findMeta_updateFirstMeta_other _ _ _ _ hk2,
      findMeta_updateFirstMeta_other _ _ _ _ hk1]

theorem injectDesc_other_meta (e : ToolsEntry) (d : Doc) (k : String)
    (hk1 : k ≠ descKey) (hk2 : k ≠ ogDescKey) (hk3 : k ≠ twitterDescKey) :
    findMeta k (injectDesc e d).metas = findMeta k d.metas := by
  unfold injectDesc
  split
  · split
    · exact applyDesc_other_meta _ _ _ hk1 hk2 hk3
    · rfl
  · rfl

theorem injectTitle_other_meta (e : ToolsEntry) (d : Doc) (k : String)
    (hk1 : k ≠ ogTitleKey) (hk2 : k ≠ twitterTitleKey) :
    findMeta k (injectTitle e d).metas = findMeta k d.metas := by
  unfold injectTitle
  split
  · split
    · unfold applyTitle
      dsimp only
      rw [findMeta_updateFirstMeta_other _ _ _ _ hk2, findMeta_updateFirstMeta_other _ _ _ _ hk1]
    · rfl
  · rfl

theorem applyDesc_descMeta (s : String) (d : Doc) :
    findMeta descKey (applyDesc s d).metas = (findMeta descKey d.metas).map (fun _ => s) := by
  unfold applyDesc
  dsimp only
  rw [findMeta_updateFirstMeta_other _ _ _ _ (by decide),
      findMeta_updateFirstMeta_other _ _ _ _ (by decide),
      findMeta_updateFirstMeta_same]

theorem resolveTitle_of_pageTitle (e : ToolsEntry) (t : String)
    (hpt : e.pageTitle = some t) (hne : t ≠ "") : resolveTitle e = some t := by
  have ht' : (t != "") = true := by simpa using hne
  unfold resolveTitle
  rw [hpt]
  simp [truthyOpt, ht']

theorem resolveTitle_of_name (e : ToolsEntry) (n : String)
    (hptf : truthyOpt e.pageTitle = false) (hn : e.name = some n) (hne : n ≠ "") :
    resolveTitle e = some (n ++ " - BentoPDF") := by
  have hn' : (n != "") = true := by simpa using hne
  unfold resolveTitle
  rw [hptf]
  simp only [Bool.false_eq_true, if_false]
  rw [hn]
  simp [hn']

theorem resolveTitle_none (e : ToolsEntry)
    (hptf : truthyOpt e.pageTitle = false) (hnf : truthyOpt e.name = false) :
    resolveTitle e = none := by
  unfold resolveTitle
  rw [hptf]
  simp only [Bool.false_eq_true, if_false]
  cases hn : e.name with
  | none => rfl
  | some n =>
    have hn' : (n != "") = false := by
      rw [hn] at hnf
      simpa [truthyOpt] using hnf
    show (if (n != "") = true then some (n ++ " - BentoPDF") else none) = none
    rw [hn']
    simp

theorem injectTitle_of_resolved (e : ToolsEntry) (d : Doc) (t : String)
    (hres : resolveTitle e = some t) (hne : t ≠ "") :
    injectTitle e d = applyTitle t d := by
  have ht' : (t != "") = true := by simpa using hne
  unfold injectTitle
  rw [hres]
  simp [ht']

theorem injectDesc_of_subtitle (e : ToolsEntry) (d : Doc) (s : String)
    (hsub : e.subtitle = some s) (hne : s ≠ "") :
    injectDesc e d = applyDesc s d := by
  have hs' : (s != "") = true := by simpa using hne
  unfold injectDesc
  rw [hsub]
  simp [hs']

theorem injectDesc_falsy (e : ToolsEntry) (d : Doc)
    (hf : truthyOpt e.subtitle = false) : injectDesc e d = d := by
  unfold injectDesc
  cases hs : e.subtitle with
  | none => rfl
  | some s =>
    have hs' : (s != "") = false := by
      rw [hs] at hf
      simpa [truthyOpt] using hf
    show (if (s != "") = true then applyDesc s d else d) = d
    rw [hs']
    simp

/-- C9 (counterexample): a bundle entry whose `pageTitle` field is present
but empty resolves the title from `name` instead (JavaScript truthiness),
and a present-but-empty `subtitle` leaves the description untouched —
contradicting the claim's "when present" reading. -/
theorem metadata_truthiness_counterexample :
    (injectMetadata [("k", { pageTitle := some "", name := some "N", subtitle := some "" })]
        "k" { htmlLang := "en", title := "T", metas := [("name=description", "D")],
              links := [], anchors := [] }).title = "N - BentoPDF"
  ∧ ("N - BentoPDF" : String) ≠ ""
  ∧ findMeta "name=description"
      (injectMetadata [("k", { pageTitle := some "", name := some "N", subtitle := some "" })]
        "k" { htmlLang := "en", title := "T", metas := [("name=description", "D")],
              links := [], anchors := [] }).metas = some "D"
  ∧ (some "D" : Option String) ≠ some "" := by
  decide

/-- C9 (amended): metadata resolution follows JavaScript truthiness — the
resolved title is `entry.pageTitle` when present and non-empty, else
`"{name} - BentoPDF"` when `entry.name` is present and non-empty, else the
existing title is untouched (and the title metadata tags with it); the
resolved description is `entry.subtitle` when present and non-empty, else
the existing description is untouched; an absent bundle entry is a
no-op. -/
theorem metadata_resolution_spec (tools : List (String × ToolsEntry)) (key : String) (d : Doc) :
    (lookupAssoc key tools = none → injectMetadata tools key d = d)
  ∧ (∀ e t, lookupAssoc key tools = some e → e.pageTitle = some t → t ≠ "" →
        (injectMetadata tools key d).title = t)
  ∧ (∀ e n, lookupAssoc key tools = some e → truthyOpt e.pageTitle = false →
        e.name = some n → n ≠ "" →
        (injectMetadata tools key d).title = n ++ " - BentoPDF")
  ∧ (∀ e, lookupAssoc key tools = some e → truthyOpt e.pageTitle = false →
        truthyOpt e.name = false →
        (injectMetadata tools key d).title = d.title
      ∧ findMeta ogTitleKey (injectMetadata tools key d).metas = findMeta ogTitleKey d.metas
      ∧ findMeta twitterTitleKey (injectMetadata tools key d).metas
          = findMeta twitterTitleKey d.metas)
  ∧ (∀ e s, lookupAssoc key tools = some e → e.subtitle = some s → s ≠ "" →
        findMeta descKey (injectMetadata tools key d).metas
          = (findMeta descKey d.metas).map (fun _ => s))
  ∧ (∀ e, lookupAssoc key tools = some e → truthyOpt e.subtitle = false →
        findMeta descKey (injectMetadata tools key d).metas = findMeta descKey d.metas) := by
  refine ⟨?_, ?_, ?_, ?_, ?_, ?_⟩
  · intro h
    unfold injectMetadata
    rw [h]
  · intro e t he hpt hne
    unfold injectMetadata
    rw [he, injectDesc_title,
      injectTitle_of_resolved e _ t (resolveTitle_of_pageTitle e t hpt hne) hne]
    rfl
  · intro e n he hptf hn hne
    have hne2 : n ++ " - BentoPDF" ≠ "" := strAppendNeEmpty_right _ _ (by decide)
    unfold injectMetadata
    rw [he, injectDesc_title,
      injectTitle_of_resolved e _ _ (resolveTitle_of_name e n hptf hn hne) hne2]
    rfl
  · intro e he hptf hnf
    have hit : injectTitle e d = d := by
      unfold injectTitle
      rw [resolveTitle_none e hptf hnf]
    unfold injectMetadata
    rw [he]
    dsimp only
    rw [hit]
    exact ⟨injectDesc_title e d,
      injectDesc_other_meta e d _ (by decide) (by decide) (by decide),
      injectDesc_other_meta e d _ (by decide) (by decide) (by decide)⟩
  · intro e s he hsub hne
    unfold injectMetadata
    rw [he]
    dsimp only
    rw [injectDesc_of_subtitle e _ s hsub hne, applyDesc_descMeta,
      injectTitle_other_meta e d descKey (by decide) (by decide)]
  · intro e he hf
    unfold injectMetadata
    rw [he]
    dsimp only
    rw [injectDesc_falsy e _ hf, injectTitle_other_meta e d descKey (by decide) (by decide)]

theorem metadata_resolution_spec_witness :
    (lookupAssoc "about" bundlesW.tools
        = some { pageTitle := some "About BentoPDF", name := some "About"
                 subtitle := some "S" }
      ∧ (({ pageTitle := some "About BentoPDF", name := some "About"
            subtitle := some "S" } : ToolsEntry)).pageTitle = some "About BentoPDF"
      ∧ ("About BentoPDF" : String) ≠ "" ∧ ("S" : String) ≠ "")
  ∧ (injectMetadata bundlesW.tools "about" docW).title = "About BentoPDF"
  ∧ findMeta descKey (injectMetadata bundlesW.tools "about" docW).metas
      = (findMeta descKey docW.metas).map (fun _ => "S") :=
  ⟨⟨by decide, by decide, by decide, by decide⟩,
   (metadata_resolution_spec bundlesW.tools "about" docW).2.1
     { pageTitle := some "About BentoPDF", name := some "About", subtitle := some "S" }
     "About BentoPDF" (by decide) (by decide) (by decide),
   (metadata_resolution_spec bundlesW.tools "about" docW).2.2.2.2.1
     { pageTitle := some "About BentoPDF", name := some "About", subtitle := some "S" }
     "S" (by decide) (by decide) (by decide)⟩
